import Mathlib

/-!
Verification of the gcpeasy convenience layer (BigQuery / Secret Manager
wrappers).  Python strings are modelled as `List Char` (ASCII fragment);
each definition is a direct shallow embedding of the corresponding
function in the repository source.  Fallible Python code (functions that
`raise`) is embedded as `Except`-returning functions with structured
error values carrying the offending data.
-/

deriving instance DecidableEq for Except

namespace Gcpeasy

/-- ASCII decimal digit. -/
def isAsciiDigit (c : Char) : Bool :=
  '0' ≤ c && c ≤ '9'

/-- ASCII lowercase letter. -/
def isLowerAlpha (c : Char) : Bool :=
  'a' ≤ c && c ≤ 'z'

/-- ASCII uppercase letter. -/
def isUpperAlpha (c : Char) : Bool :=
  'A' ≤ c && c ≤ 'Z'

/-- ASCII letter (either case). -/
def isAsciiAlpha (c : Char) : Bool :=
  isLowerAlpha c || isUpperAlpha c

/-- ASCII letter or digit. -/
def isAsciiAlnum (c : Char) : Bool :=
  isAsciiAlpha c || isAsciiDigit c

/-- ASCII lowercase letter or digit. -/
def isLowerAlnum (c : Char) : Bool :=
  isLowerAlpha c || isAsciiDigit c

/-- Python `str.isdigit()` on the ASCII fragment: non-empty and all
decimal digits. -/
def pyIsDigit (l : List Char) : Bool :=
  !l.isEmpty && l.all isAsciiDigit

/-- Uppercase one character, ASCII fragment of Python `str.upper`. -/
def charUpper (c : Char) : Char :=
  if isLowerAlpha c then Char.ofNat (c.toNat - 32) else c

/-- Lowercase one character, ASCII fragment of Python `str.lower`. -/
def charLower (c : Char) : Char :=
  if isUpperAlpha c then Char.ofNat (c.toNat + 32) else c

/-- Python `str.upper()` on the ASCII fragment. -/
def pyUpper (l : List Char) : List Char :=
  l.map charUpper

/-- Python `str.lower()` on the ASCII fragment. -/
def pyLower (l : List Char) : List Char :=
  l.map charLower

/-- Substring test, the Python operator `needle in haystack`. -/
def isSubstring (needle : List Char) : List Char → Bool
  | [] => needle.isEmpty
  | c :: cs => needle.isPrefixOf (c :: cs) || isSubstring needle cs

/-- Python `int(s)` for a string of decimal digits. -/
def pyDigitsToNat (l : List Char) : Nat :=
  l.foldl (fun a c => a * 10 + (c.toNat - 48)) 0

/-- Python `re.match` against a pattern of the form `^core$`: the `$`
anchor also matches just before a single newline at the very end of the
string, so the string matches when either the whole string or the string
with one trailing newline removed matches `core`. -/
def reMatchDollar (core : List Char → Bool) (l : List Char) : Bool :=
  core l || (l.getLast? == some '\n' && core l.dropLast)

/-! ## Secret Manager: `src/gcpeasy/secretmanager/client.py` -/

namespace Sm

/-- Body of `_SECRET_ID_PATTERN = ^[a-zA-Z0-9][a-zA-Z0-9_-]{0,254}$`
(without the anchors, which `reMatchDollar` supplies). -/
def secretIdCore : List Char → Bool
  | [] => false
  | c :: cs =>
    isAsciiAlnum c && cs.length ≤ 254 &&
      cs.all fun x => isAsciiAlnum x || x == '_' || x == '-'

/-- Body of `_PROJECT_ID_PATTERN = ^[a-z][a-z0-9-]*[a-z0-9]$` (at least
two characters: lowercase-letter start, lowercase-alphanumeric end,
lowercase-alphanumeric-or-hyphen interior). -/
def projectIdCore : List Char → Bool
  | [] => false
  | c :: cs =>
    match cs.getLast? with
    | none => false
    | some x =>
      isLowerAlpha c && isLowerAlnum x &&
        cs.dropLast.all fun y => isLowerAlnum y || y == '-'

/-- Structured stand-ins for the `ValueError`s raised by the client. -/
inductive Err where
  | invalidSecretId (secretId : List Char)
  | invalidProjectId (projectId : List Char)
  | invalidVersion (version : List Char)
  | versionNotPositive (version : Int)
  | invalidResourcePath (identifier : List Char)
  | invalidSecretIdentifier (identifier : List Char)
  | bothJsonAndBytes
  | notFound
  deriving DecidableEq, Repr

/-- `_validate_secret_id`. -/
def validate_secret_id (secret_id : List Char) : Except Err Unit :=
  if reMatchDollar secretIdCore secret_id then .ok ()
  else .error (.invalidSecretId secret_id)

/-- `_validate_project_id`: digits pass unconditionally, otherwise the
lowercase project-ID pattern must match. -/
def validate_project_id (project_id : List Char) : Except Err Unit :=
  if pyIsDigit project_id || reMatchDollar projectIdCore project_id then .ok ()
  else .error (.invalidProjectId project_id)

/-- A Python version argument: `str | int`. -/
inductive PyVersion where
  | int (n : Int)
  | str (s : List Char)
  deriving DecidableEq, Repr

/-- `_validate_version`: positive ints become decimal strings, the
keywords `latest` / `latest:enabled` pass through, digit strings must
denote an integer `≥ 1`, everything else is rejected. -/
def validate_version : PyVersion → Except Err (List Char)
  | .int n =>
    if n < 1 then .error (.versionNotPositive n)
    else .ok (toString n).data
  | .str s =>
    if s = "latest".data ∨ s = "latest:enabled".data then .ok s
    else if pyIsDigit s then
      if pyDigitsToNat s < 1 then .error (.invalidVersion s)
      else .ok s
    else .error (.invalidVersion s)

/-- Python `identifier.split("/", 1)`: split at the first slash. -/
def splitFirstSlash : List Char → (List Char × Option (List Char))
  | [] => ([], none)
  | c :: cs =>
    if c = '/' then ([], some cs)
    else
      let r := splitFirstSlash cs
      (c :: r.1, r.2)

/-- Python `identifier.split("/")`: split at every slash, keeping empty
segments (`"".split("/") == [""]`). -/
def splitSlashes : List Char → List (List Char)
  | [] => [[]]
  | c :: cs =>
    let r := splitSlashes cs
    if c = '/' then [] :: r
    else (c :: r.headD []) :: r.tail

/-- `_normalize_secret_path`: the three accepted identifier shapes. -/
def normalize_secret_path (identifier project_id : List Char) :
    Except Err (List Char × List Char × Option (List Char)) :=
  if "projects/".data.isPrefixOf identifier then
    let parts := splitSlashes identifier
    if parts.length < 4 ∨ parts.getD 2 [] ≠ "secrets".data then
      .error (.invalidResourcePath identifier)
    else
      let ver :=
        if 6 ≤ parts.length ∧ parts.getD 4 [] = "versions".data then
          some (parts.getD 5 [])
        else none
      .ok (parts.getD 1 [], parts.getD 3 [], ver)
  else if identifier.contains '/' then
    match splitFirstSlash identifier with
    | (proj, some sec) =>
      if proj = [] ∨ sec = [] then .error (.invalidSecretIdentifier identifier)
      else .ok (proj, sec, none)
    | (_, none) => .error (.invalidSecretIdentifier identifier)
  else
    .ok (project_id, identifier, none)

/-- The version actually used by `Client.get`: explicit call-time
version, else the version embedded in the identifier path, else the
client-level default (each normalized by `validate_version`). -/
def resolveVersion (version : Option PyVersion) (path_version : Option (List Char))
    (default_version : List Char) : Except Err (List Char) :=
  match version with
  | some v => validate_version v
  | none =>
    match path_version with
    | some p => validate_version (.str p)
    | none => validate_version (.str default_version)

/-- The defaults held by a Secret Manager `Client`. -/
structure Client where
  project_id : List Char
  default_version : List Char
  default_encoding : List Char
  deriving Repr

/-- A Python value returned by `Client.get` (raw bytes, decoded text,
parsed JSON, or a caller-supplied default of any type). -/
inductive PyVal where
  | none
  | str (s : List Char)
  | bytes (b : List Nat)
  | json (j : List Char)
  | other (tag : Nat)
  deriving DecidableEq, Repr

/-- The `default` argument of the retrieval family: the module-level
`_UNSET` sentinel distinguishes "no default supplied" from an explicit
default (which may itself be `None`). -/
inductive DefaultArg where
  | unset
  | given (v : PyVal)
  deriving DecidableEq, Repr

/-- `Client.get`, with the remote service abstracted as `store` (mapping
a fully qualified version resource name to its payload, `none` meaning
the service reports not-found), `decode` standing for
`payload.decode(encoding)` and `jsonParse` for `json.loads`. -/
def Client.get (store : List Char → Option (List Nat))
    (decode : List Nat → List Char) (jsonParse : List Char → PyVal)
    (cli : Client) (secret : List Char) (version : Option PyVersion)
    (as_json as_bytes : Bool) (default : DefaultArg) : Except Err PyVal := do
  if as_json && as_bytes then throw .bothJsonAndBytes
  let (proj, sec, path_version) ← normalize_secret_path secret cli.project_id
  let ver ← resolveVersion version path_version cli.default_version
  let _ ← validate_project_id proj
  let _ ← validate_secret_id sec
  let name := "projects/".data ++ proj ++ "/secrets/".data ++ sec ++
    "/versions/".data ++ ver
  match store name with
  | Option.none =>
    match default with
    | .unset => throw .notFound
    | .given v => return v
  | some payload =>
    if as_bytes then return .bytes payload
    let text := decode payload
    if as_json then return jsonParse text
    return .str text

/-- Python whitespace stripped by `str.strip()` (ASCII fragment). -/
def isPySpace (c : Char) : Bool :=
  c == ' ' || c == '\t' || c == '\n' || c == '\r' ||
    c == Char.ofNat 11 || c == Char.ofNat 12

/-- Python `str.strip()`. -/
def pyStrip (l : List Char) : List Char :=
  ((l.dropWhile isPySpace).reverse.dropWhile isPySpace).reverse

/-- Python `line.split(key_separator, 1)` restricted to the found case:
`some (before, after)` splits at the first occurrence of `sep`,
`none` when `sep` does not occur (`key_separator not in line`). -/
def splitFirstSep (sep : List Char) : List Char → Option (List Char × List Char)
  | [] => if sep.isEmpty then some ([], []) else none
  | c :: cs =>
    if sep.isPrefixOf (c :: cs) then some ([], (c :: cs).drop sep.length)
    else
      match splitFirstSep sep cs with
      | some (a, b) => some (c :: a, b)
      | none => none

/-- Recursion core for `splitOnSep`.  For a non-empty separator every
split strictly shortens the remainder, so `l.length + 1` units of fuel
always suffice and the fuel never runs out. -/
def splitOnSepAux (sep : List Char) : Nat → List Char → List (List Char)
  | 0, l => [l]
  | fuel + 1, l =>
    match splitFirstSep sep l with
    | none => [l]
    | some (a, b) => a :: splitOnSepAux sep fuel b

/-- Python `text.split(line_separator)` for a non-empty separator
(Python raises on an empty separator, which this model does not cover). -/
def splitOnSep (sep : List Char) (l : List Char) : List (List Char) :=
  splitOnSepAux sep (l.length + 1) l

/-- Python `dict` assignment `result[key] = value`: replace an existing
binding in place, else append. -/
def dictSet : List (List Char × List Char) → List Char → List Char →
    List (List Char × List Char)
  | [], k, v => [(k, v)]
  | (k0, v0) :: rest, k, v =>
    if k0 = k then (k0, v) :: rest else (k0, v0) :: dictSet rest k v

/-- The per-line part of the `get_dict` parsing loop: `none` for a line
that is skipped (empty, or the key separator does not occur in it),
otherwise the `(key, value)` pair obtained by splitting on the first
occurrence of the key separator and applying the strip/uppercase
options. -/
def processLine (key_separator : List Char)
    (strip_keys strip_values uppercase_keys : Bool) (line : List Char) :
    Option (List Char × List Char) :=
  if line.isEmpty then none
  else
    match splitFirstSep key_separator line with
    | none => none
    | some (k0, v0) =>
      let key := if strip_keys then pyStrip k0 else k0
      let value := if strip_values then pyStrip v0 else v0
      let key := if uppercase_keys then pyUpper key else key
      some (key, value)

/-- One iteration of the `get_dict` parsing loop. -/
def getDictStep (key_separator : List Char) (strip_keys strip_values uppercase_keys : Bool)
    (acc : List (List Char × List Char)) (line : List Char) :
    List (List Char × List Char) :=
  match processLine key_separator strip_keys strip_values uppercase_keys line with
  | none => acc
  | some (k, v) => dictSet acc k v

/-- The parsing part of `Client.get_dict`, applied to the retrieved
secret text. -/
def get_dict_parse (text line_separator key_separator : List Char)
    (strip_keys strip_values uppercase_keys : Bool) :
    List (List Char × List Char) :=
  (splitOnSep line_separator text).foldl
    (getDictStep key_separator strip_keys strip_values uppercase_keys) []

end Sm

/-! ## BigQuery: `src/gcpeasy/bq/` -/

namespace Bq

/-- Word character of the table/dataset identifier pattern,
`[a-zA-Z0-9_]`. -/
def isWordChar (c : Char) : Bool :=
  isAsciiAlnum c || c == '_'

/-- Body of the table/dataset pattern `^[a-zA-Z_][a-zA-Z0-9_]*$`. -/
def genericIdCore : List Char → Bool
  | [] => false
  | c :: cs => (isAsciiAlpha c || c == '_') && cs.all isWordChar

/-- Character class `[a-z0-9\-\'_]` of the warehouse project pattern
under `re.IGNORECASE` (letters of both cases, digits, hyphen,
apostrophe, underscore). -/
def bqProjectBodyChar (c : Char) : Bool :=
  isAsciiAlnum c || c == '-' || c == Char.ofNat 39 || c == '_'

/-- Body of the warehouse project pattern `^[a-z][a-z0-9\-\'_]*$`
compiled with `re.IGNORECASE`. -/
def bqProjectCore : List Char → Bool
  | [] => false
  | c :: cs => isAsciiAlpha c && cs.all bqProjectBodyChar

/-- Structured stand-ins for the `ValueError`/`TypeError`s raised by the
BigQuery wrappers. -/
inductive Err where
  | emptyIdentifier (name : List Char)
  | identifierTooLong (name : List Char)
  | invalidIdentifier (name identifier : List Char)
  | unsupportedFormat (extension : List Char)
  | cannotDetectGcsFormat (uri : List Char)
  | schemaRequired
  | conflict
  deriving DecidableEq, Repr

/-- `validate_identifier` from `bq/validation.py`: empty and over-long
identifiers are rejected, then the project pattern applies when the
`name` label contains `"project"`, the table/dataset pattern
otherwise. -/
def validate_identifier (identifier : List Char) (name : List Char) :
    Except Err (List Char) :=
  if identifier.isEmpty then .error (.emptyIdentifier name)
  else if 1024 < identifier.length then .error (.identifierTooLong name)
  else if isSubstring "project".data (pyLower name) then
    if reMatchDollar bqProjectCore identifier then .ok identifier
    else .error (.invalidIdentifier name identifier)
  else
    if reMatchDollar genericIdCore identifier then .ok identifier
    else .error (.invalidIdentifier name identifier)

/-- The fixed alias table of `_normalize_type_name` in `bq/schema.py`. -/
def typeAliasMap : List (List Char × List Char) :=
  [("INTEGER".data, "INT64".data),
   ("INT".data, "INT64".data),
   ("BIGINT".data, "INT64".data),
   ("FLOAT".data, "FLOAT64".data),
   ("DOUBLE".data, "FLOAT64".data),
   ("BOOL".data, "BOOLEAN".data),
   ("BYTES".data, "BYTES".data),
   ("STRING".data, "STRING".data),
   ("TEXT".data, "STRING".data),
   ("VARCHAR".data, "STRING".data),
   ("DATE".data, "DATE".data),
   ("DATETIME".data, "DATETIME".data),
   ("TIME".data, "TIME".data),
   ("TIMESTAMP".data, "TIMESTAMP".data),
   ("NUMERIC".data, "NUMERIC".data),
   ("BIGNUMERIC".data, "BIGNUMERIC".data),
   ("GEOGRAPHY".data, "GEOGRAPHY".data),
   ("JSON".data, "JSON".data),
   ("ARRAY".data, "ARRAY".data),
   ("STRUCT".data, "STRUCT".data)]

/-- Association-list lookup, Python `dict.get(key, fallback)`. -/
def assocLookup (key : List Char) : List (List Char × List Char) → Option (List Char)
  | [] => none
  | (k, v) :: rest => if k = key then some v else assocLookup key rest

/-- `_normalize_type_name`: uppercase, then `type_map.get(type_upper,
type_upper)`. -/
def normalize_type_name (type_str : List Char) : List Char :=
  let type_upper := pyUpper type_str
  (assocLookup type_upper typeAliasMap).getD type_upper

/-- `dict_to_schema_fields`: one `(name, normalized type)` field per
mapping entry, in mapping order. -/
def dict_to_schema_fields (schema_dict : List (List Char × List Char)) :
    List (List Char × List Char) :=
  schema_dict.map fun p => (p.1, normalize_type_name p.2)

/-- Characters after the last `.` of a name, `none` when the name has no
dot. -/
def afterLastDot : List Char → Option (List Char)
  | [] => none
  | c :: cs =>
    match afterLastDot cs with
    | some r => some r
    | none => if c = '.' then some cs else none

/-- `pathlib.Path(...).suffix` for a name without path separators: the
segment from the last dot on, except when that dot is the first or the
last character (`Path(".csv").suffix == ""`, `Path("a.").suffix == ""`). -/
def pathSuffix : List Char → List Char
  | [] => []
  | _ :: cs =>
    match afterLastDot cs with
    | none => []
    | some rest => if rest.isEmpty then [] else '.' :: rest

/-- The shared 7-entry extension table (`format_map` in
`bq/file_utils.py` and `gcs_formats` in `Table.write`, which list the
same pairs in the same order). -/
def formatMap : List (List Char × List Char) :=
  [(".csv".data, "CSV".data),
   (".json".data, "NEWLINE_DELIMITED_JSON".data),
   (".jsonl".data, "NEWLINE_DELIMITED_JSON".data),
   (".ndjson".data, "NEWLINE_DELIMITED_JSON".data),
   (".parquet".data, "PARQUET".data),
   (".avro".data, "AVRO".data),
   (".orc".data, "ORC".data)]

/-- `detect_source_format` from `bq/file_utils.py`: lowercase the
`Path` suffix and look it up in `format_map`. -/
def detect_source_format (file_path : List Char) : Except Err (List Char) :=
  let extension := pyLower (pathSuffix file_path)
  match assocLookup extension formatMap with
  | some fmt => .ok fmt
  | none => .error (.unsupportedFormat extension)

/-- The GCS-URI format detection of `Table.write`:
`next((e for e in gcs_formats if data_str.endswith(e)), None)`, the
first table key that is a raw string suffix of the URI. -/
def detect_gcs_format (data_str : List Char) : Except Err (List Char) :=
  match formatMap.find? (fun p => p.1.isSuffixOf data_str) with
  | some p => .ok p.2
  | none => .error (.cannotDetectGcsFormat data_str)

/-- The fully qualified `Table.id`: `project.dataset.table`. -/
def tableId (project_id dataset_id table_id : List Char) : List Char :=
  project_id ++ '.' :: dataset_id ++ '.' :: table_id

/-- The query text built by `Table.read` in `gcpeasy/bq/table.py`:
`f"SELECT * FROM `{self.id}`{f' LIMIT {max_results}' if max_results else ''}"`
(the limit is interpolated into the text whenever `max_results` is
truthy). -/
def readQuery (id : List Char) (max_results : Option Int) : List Char :=
  "SELECT * FROM `".data ++ id ++ "`".data ++
    (match max_results with
     | some n => if n ≠ 0 then " LIMIT ".data ++ (toString n).data else []
     | none => [])

/-- The vendor SDK's `client.create_table(table, exists_ok=...)`:
raises `Conflict` when the table already exists, unless `exists_ok` was
passed. -/
def vendorCreateTable (table_exists exists_ok : Bool) : Except Err Unit :=
  if table_exists && !exists_ok then .error .conflict else .ok ()

/-- The `data is None` branch of `Table.write`: an explicit schema is
required, and the empty table is created with `exists_ok=True`
unconditionally.  Returns the schema fields handed to the vendor
table object. -/
def Table.write_none (schema : Option (List (List Char × List Char)))
    (table_exists : Bool) : Except Err (List (List Char × List Char)) := do
  match schema with
  | none => throw .schemaRequired
  | some s =>
    let schema_fields := dict_to_schema_fields s
    let _ ← vendorCreateTable table_exists true
    return schema_fields

/-- `Table.create`: `try: create_table(...) except Conflict: if not
exists_ok: raise`.  Returns the schema fields of the created table. -/
def Table.create (schema : List (List Char × List Char)) (table_exists : Bool)
    (exists_ok : Bool) : Except Err (List (List Char × List Char)) :=
  let schema_fields := dict_to_schema_fields schema
  match vendorCreateTable table_exists false with
  | .ok _ => .ok schema_fields
  | .error .conflict =>
    if exists_ok then .ok schema_fields else .error .conflict
  | .error e => .error e

end Bq

/-! ## Specification-level formulations

Prop-level descriptions of the identifier patterns and of `$`-anchored
matching, used to state the claims independently of the executable
matchers above. -/

/-- An all-digit (project-number) string. -/
def AllDigits (l : List Char) : Prop :=
  l ≠ [] ∧ ∀ c ∈ l, isAsciiDigit c = true

/-- A string matches an `^...$`-anchored Python pattern with body `P`
iff `P` holds of the string itself or of the string with one trailing
newline removed. -/
def DollarMatches (P : List Char → Prop) (l : List Char) : Prop :=
  P l ∨ ∃ t, l = t ++ ['\n'] ∧ P t

/-- Shape described by `^[a-zA-Z_][a-zA-Z0-9_]*` : letter or underscore,
then word characters. -/
def GenericShape (l : List Char) : Prop :=
  ∃ c cs, l = c :: cs ∧ (isAsciiAlpha c = true ∨ c = '_') ∧
    ∀ y ∈ cs, Bq.isWordChar y = true

/-- Shape described by the warehouse project pattern
`^[a-z][a-z0-9\-\'_]*` under `re.IGNORECASE`. -/
def BqProjectShape (l : List Char) : Prop :=
  ∃ c cs, l = c :: cs ∧ isAsciiAlpha c = true ∧
    ∀ y ∈ cs, Bq.bqProjectBodyChar y = true

/-- Shape described by the secret-manager project pattern
`^[a-z][a-z0-9-]*[a-z0-9]` : lowercase-letter start,
lowercase-alphanumeric end, hyphens allowed in between. -/
def SmProjectShape (l : List Char) : Prop :=
  ∃ c mid x, l = c :: mid ++ [x] ∧ isLowerAlpha c = true ∧
    (∀ y ∈ mid, (isLowerAlnum y || y == '-') = true) ∧ isLowerAlnum x = true

/-- Join segments with `/`, the inverse of Python `split("/")`. -/
def joinSlashes : List (List Char) → List Char
  | [] => []
  | [a] => a
  | a :: rest => a ++ '/' :: joinSlashes rest

end Gcpeasy

open Gcpeasy

/-! ## Helper lemmas -/

theorem isPrefixOf_true {l₁ l₂ : List Char} : l₁.isPrefixOf l₂ = true ↔ l₁ <+: l₂ := by
  induction l₁ generalizing l₂ with
  | nil => simp [List.isPrefixOf]
  | cons a as ih =>
    cases l₂ with
    | nil => simp [List.isPrefixOf]
    | cons b bs =>
      simp only [List.isPrefixOf, List.cons_prefix_cons, Bool.and_eq_true, beq_iff_eq, ih]

theorem isSuffixOf_true {l₁ l₂ : List Char} : l₁.isSuffixOf l₂ = true ↔ l₁ <:+ l₂ := by
  rw [List.isSuffixOf, isPrefixOf_true]
  constructor
  · rintro ⟨t, ht⟩
    refine ⟨t.reverse, ?_⟩
    have h2 := congrArg List.reverse ht
    simpa using h2
  · rintro ⟨t, ht⟩
    refine ⟨t.reverse, ?_⟩
    have h2 := congrArg List.reverse ht
    simpa using h2

theorem reMatchDollar_true {core : List Char → Bool} {P : List Char → Prop}
    (hcore : ∀ l, core l = true ↔ P l) (l : List Char) :
    reMatchDollar core l = true ↔ DollarMatches P l := by
  simp only [reMatchDollar, DollarMatches, Bool.or_eq_true, Bool.and_eq_true, beq_iff_eq]
  constructor
  · rintro (h | ⟨hlast, hcore2⟩)
    · exact Or.inl ((hcore l).mp h)
    · refine Or.inr ⟨l.dropLast, ?_, (hcore l.dropLast).mp hcore2⟩
      have hne : l ≠ [] := by rintro rfl; simp at hlast
      conv_lhs => rw [← List.dropLast_append_getLast hne]
      rw [List.getLast?_eq_getLast l hne] at hlast
      simp only [Option.some.injEq] at hlast
      rw [hlast]
  · rintro (h | ⟨t, rfl, hp⟩)
    · exact Or.inl ((hcore l).mpr h)
    · refine Or.inr ⟨?_, ?_⟩
      · simp [List.getLast?_concat]
      · rw [List.dropLast_concat]
        exact (hcore t).mpr hp

theorem pyIsDigit_true {l : List Char} : pyIsDigit l = true ↔ AllDigits l := by
  simp [pyIsDigit, AllDigits, List.all_eq_true, List.isEmpty_iff]

theorem genericIdCore_true {l : List Char} : Bq.genericIdCore l = true ↔ GenericShape l := by
  cases l with
  | nil => simp [Bq.genericIdCore, GenericShape]
  | cons c cs =>
    simp only [Bq.genericIdCore, GenericShape, List.all_eq_true, Bool.or_eq_true,
      Bool.and_eq_true, beq_iff_eq]
    constructor
    · rintro ⟨h1, h2⟩
      exact ⟨c, cs, rfl, h1, h2⟩
    · rintro ⟨c1, cs1, heq, h1, h2⟩
      cases heq
      exact ⟨h1, h2⟩

theorem bqProjectCore_true {l : List Char} : Bq.bqProjectCore l = true ↔ BqProjectShape l := by
  cases l with
  | nil => simp [Bq.bqProjectCore, BqProjectShape]
  | cons c cs =>
    simp only [Bq.bqProjectCore, BqProjectShape, List.all_eq_true, Bool.and_eq_true]
    constructor
    · rintro ⟨h1, h2⟩
      exact ⟨c, cs, rfl, h1, h2⟩
    · rintro ⟨c1, cs1, heq, h1, h2⟩
      cases heq
      exact ⟨h1, h2⟩

theorem smProjectCore_true {l : List Char} : Sm.projectIdCore l = true ↔ SmProjectShape l := by
  cases l with
  | nil =>
    simp only [Sm.projectIdCore, SmProjectShape]
    constructor
    · intro h; cases h
    · rintro ⟨c0, mid, x, heq, -⟩
      cases heq
  | cons c cs =>
    induction cs using List.reverseRecOn with
    | nil =>
      simp only [Sm.projectIdCore, List.getLast?_eq_none_iff]
      constructor
      · intro h; cases h
      · rintro ⟨c0, mid, x, heq, -⟩
        have := congrArg List.length heq
        simp at this
    | append_singleton mid0 x0 =>
      simp only [Sm.projectIdCore, List.getLast?_concat, List.dropLast_concat,
        Bool.and_eq_true, List.all_eq_true, SmProjectShape]
      constructor
      · rintro ⟨⟨h1, h2⟩, h3⟩
        exact ⟨c, mid0, x0, rfl, h1, h3, h2⟩
      · rintro ⟨c1, mid1, x1, heq, h1, h2, h3⟩
        rw [List.cons_append] at heq
        injection heq with hc htail
        subst hc
        have hx : x0 = x1 := by
          have := congrArg List.getLast? htail
          simpa [List.getLast?_concat] using this
        subst hx
        have hmid : mid0 = mid1 := by
          have := congrArg List.dropLast htail
          simpa [List.dropLast_concat] using this
        subst hmid
        exact ⟨⟨h1, h3⟩, h2⟩

theorem validate_identifier_project_ok (s name : List Char)
    (hname : isSubstring "project".data (pyLower name) = true) :
    Bq.validate_identifier s name = .ok s ↔
      s ≠ [] ∧ s.length ≤ 1024 ∧ reMatchDollar Bq.bqProjectCore s = true := by
  constructor
  · intro hok
    unfold Bq.validate_identifier at hok
    by_cases h1 : s.isEmpty = true
    · rw [if_pos h1] at hok; exact absurd hok (by simp)
    · rw [if_neg h1] at hok
      by_cases h2 : 1024 < s.length
      · rw [if_pos h2] at hok; exact absurd hok (by simp)
      · rw [if_neg h2, if_pos hname] at hok
        by_cases h3 : reMatchDollar Bq.bqProjectCore s = true
        · exact ⟨fun hnil => h1 (by simp [hnil]), by omega, h3⟩
        · rw [if_neg h3] at hok; exact absurd hok (by simp)
  · rintro ⟨hne, hlen, hm⟩
    unfold Bq.validate_identifier
    rw [if_neg (by simpa [List.isEmpty_iff] using hne), if_neg (by omega),
      if_pos hname, if_pos hm]

theorem validate_identifier_generic_ok (s name : List Char)
    (hname : isSubstring "project".data (pyLower name) = false) :
    Bq.validate_identifier s name = .ok s ↔
      s ≠ [] ∧ s.length ≤ 1024 ∧ reMatchDollar Bq.genericIdCore s = true := by
  have hname2 : ¬ (isSubstring "project".data (pyLower name) = true) := by
    simp [hname]
  constructor
  · intro hok
    unfold Bq.validate_identifier at hok
    by_cases h1 : s.isEmpty = true
    · rw [if_pos h1] at hok; exact absurd hok (by simp)
    · rw [if_neg h1] at hok
      by_cases h2 : 1024 < s.length
      · rw [if_pos h2] at hok; exact absurd hok (by simp)
      · rw [if_neg h2, if_neg hname2] at hok
        by_cases h3 : reMatchDollar Bq.genericIdCore s = true
        · exact ⟨fun hnil => h1 (by simp [hnil]), by omega, h3⟩
        · rw [if_neg h3] at hok; exact absurd hok (by simp)
  · rintro ⟨hne, hlen, hm⟩
    unfold Bq.validate_identifier
    rw [if_neg (by simpa [List.isEmpty_iff] using hne), if_neg (by omega),
      if_neg hname2, if_pos hm]

theorem splitFirstSlash_no_slash {l : List Char} (h : '/' ∉ l) :
    Sm.splitFirstSlash l = (l, none) := by
  induction l with
  | nil => rfl
  | cons c cs ih =>
    have hc : ¬ c = '/' := fun hc => h (hc ▸ List.mem_cons_self c cs)
    simp only [Sm.splitFirstSlash, if_neg hc, ih (fun hm => h (List.mem_cons_of_mem c hm))]

theorem splitFirstSlash_append {a b : List Char} (h : '/' ∉ a) :
    Sm.splitFirstSlash (a ++ '/' :: b) = (a, some b) := by
  induction a with
  | nil => simp [Sm.splitFirstSlash]
  | cons c cs ih =>
    have hc : ¬ c = '/' := fun hc => h (hc ▸ List.mem_cons_self c cs)
    have ih2 := ih (fun hm => h (List.mem_cons_of_mem c hm))
    simp [Sm.splitFirstSlash, if_neg hc, ih2]

theorem splitSlashes_no_slash {l : List Char} (h : '/' ∉ l) :
    Sm.splitSlashes l = [l] := by
  induction l with
  | nil => rfl
  | cons c cs ih =>
    have hc : ¬ c = '/' := fun hc => h (hc ▸ List.mem_cons_self c cs)
    have ih2 := ih (fun hm => h (List.mem_cons_of_mem c hm))
    simp [Sm.splitSlashes, ih2, if_neg hc]

theorem splitSlashes_seg {a rest : List Char} (h : '/' ∉ a) :
    Sm.splitSlashes (a ++ '/' :: rest) = a :: Sm.splitSlashes rest := by
  induction a with
  | nil => simp [Sm.splitSlashes]
  | cons c cs ih =>
    have hc : ¬ c = '/' := fun hc => h (hc ▸ List.mem_cons_self c cs)
    have ih2 := ih (fun hm => h (List.mem_cons_of_mem c hm))
    simp [Sm.splitSlashes, ih2, if_neg hc]

theorem splitSlashes_join {parts : List (List Char)} (hne : parts ≠ [])
    (hfree : ∀ p ∈ parts, '/' ∉ p) :
    Sm.splitSlashes (joinSlashes parts) = parts := by
  induction parts with
  | nil => exact absurd rfl hne
  | cons a rest ih =>
    cases rest with
    | nil => exact splitSlashes_no_slash (hfree a (List.mem_cons_self a []))
    | cons b rest2 =>
      have hstep : joinSlashes (a :: b :: rest2) = a ++ '/' :: joinSlashes (b :: rest2) := rfl
      rw [hstep, splitSlashes_seg (hfree a (List.mem_cons_self a _)),
        ih (by simp) (fun p hp => hfree p (List.mem_cons_of_mem a hp))]

theorem mem_of_isPrefixOf_mem {a l : List Char} {c : Char}
    (h : a.isPrefixOf l = true) (hc : c ∈ a) : c ∈ l := by
  rcases isPrefixOf_true.mp h with ⟨t, rfl⟩
  exact List.mem_append_left t hc

theorem splitFirstSep_none {sep l : List Char} :
    Sm.splitFirstSep sep l = none ↔ isSubstring sep l = false := by
  induction l with
  | nil =>
    simp only [Sm.splitFirstSep, isSubstring]
    by_cases h : sep.isEmpty <;> simp [h]
  | cons c cs ih =>
    simp only [Sm.splitFirstSep, isSubstring]
    by_cases hp : sep.isPrefixOf (c :: cs) = true
    · simp [hp]
    · have hp2 : sep.isPrefixOf (c :: cs) = false := Bool.eq_false_iff.mpr hp
      rw [if_neg hp, hp2, Bool.false_or]
      cases hrec : Sm.splitFirstSep sep cs with
      | none => simp [ih.mp hrec]
      | some p =>
        rw [← ih, hrec]
        simp

theorem splitFirstSep_spec {sep l k v : List Char} (hsep : sep ≠ [])
    (h : Sm.splitFirstSep sep l = some (k, v)) :
    l = k ++ sep ++ v ∧
      ∀ k2 v2 : List Char, l = k2 ++ sep ++ v2 → k.length ≤ k2.length := by
  induction l generalizing k v with
  | nil =>
    have hne : sep.isEmpty = false := by simpa [List.isEmpty_iff] using hsep
    simp [Sm.splitFirstSep, hne] at h
  | cons c cs ih =>
    by_cases hp : sep.isPrefixOf (c :: cs) = true
    · simp only [Sm.splitFirstSep, if_pos hp, Option.some.injEq, Prod.mk.injEq] at h
      obtain ⟨hk, hv⟩ := h
      obtain ⟨t, ht⟩ := isPrefixOf_true.mp hp
      subst hk
      constructor
      · rw [← hv, ← ht]
        simp [← ht, List.drop_left]
      · intro k2 v2 heq
        simp
    · simp only [Sm.splitFirstSep, if_neg hp] at h
      cases hrec : Sm.splitFirstSep sep cs with
      | none => rw [hrec] at h; simp at h
      | some p =>
        obtain ⟨a, b⟩ := p
        rw [hrec] at h
        simp only [Option.some.injEq, Prod.mk.injEq] at h
        obtain ⟨hk, hv⟩ := h
        obtain ⟨h1, h2⟩ := ih hrec
        subst hk hv
        constructor
        · simp [h1]
        · intro k2 v2 heq
          cases k2 with
          | nil =>
            exfalso
            apply hp
            apply isPrefixOf_true.mpr
            exact ⟨v2, by simpa using heq.symm⟩
          | cons d ds =>
            simp only [List.cons_append, List.cons.injEq] at heq
            have := h2 ds v2 heq.2
            simp only [List.length_cons]
            omega

theorem assocLookup_dictSet (acc : List (List Char × List Char)) (k v k2 : List Char) :
    Bq.assocLookup k2 (Sm.dictSet acc k v) =
      if k = k2 then some v else Bq.assocLookup k2 acc := by
  induction acc with
  | nil =>
    simp only [Sm.dictSet, Bq.assocLookup]
  | cons p rest ih =>
    obtain ⟨k0, v0⟩ := p
    by_cases h0 : k0 = k
    · subst h0
      simp only [Sm.dictSet, if_pos rfl]
      by_cases hk : k0 = k2 <;> simp [Bq.assocLookup, hk]
    · simp only [Sm.dictSet, if_neg h0]
      by_cases hk : k0 = k2
      · subst hk
        have : ¬ k = k0 := fun he => h0 he.symm
        simp [Bq.assocLookup, this]
      · simp [Bq.assocLookup, hk, ih]

theorem assocLookup_foldl_getDictStep (ks : List Char) (sk sv uk : Bool)
    (lines : List (List Char)) (acc : List (List Char × List Char)) (k : List Char) :
    Bq.assocLookup k (lines.foldl (Sm.getDictStep ks sk sv uk) acc) =
      (lines.reverse.findSome? fun line =>
         match Sm.processLine ks sk sv uk line with
         | some (k2, v) => if k2 = k then some v else none
         | none => none).or (Bq.assocLookup k acc) := by
  induction lines generalizing acc with
  | nil => simp
  | cons line rest ih =>
    rw [List.foldl_cons, ih, List.reverse_cons, List.findSome?_append]
    cases hF : rest.reverse.findSome? (fun line =>
        match Sm.processLine ks sk sv uk line with
        | some (k2, v) => if k2 = k then some v else none
        | none => none) with
    | some w => simp
    | none =>
      simp only [Option.none_or]
      unfold Sm.getDictStep
      cases hp : Sm.processLine ks sk sv uk line with
      | none => simp [hp]
      | some p =>
        obtain ⟨k2, v⟩ := p
        simp only [hp, List.findSome?_cons, List.findSome?_nil]
        rw [assocLookup_dictSet]
        by_cases hk : k2 = k <;> simp [hk]

theorem afterLastDot_eq_none {m : List Char} :
    Bq.afterLastDot m = none ↔ '.' ∉ m := by
  induction m with
  | nil => simp [Bq.afterLastDot]
  | cons c cs ih =>
    simp only [Bq.afterLastDot]
    cases h : Bq.afterLastDot cs with
    | some r =>
      have hdot : '.' ∈ cs := by
        by_contra hnot
        rw [ih.mpr hnot] at h
        cases h
      simp [hdot]
    | none =>
      have hfree : '.' ∉ cs := ih.mp h
      by_cases hc : c = '.'
      · simp [hc, hfree]
      · rw [if_neg hc]
        constructor
        · rintro -
          simp only [List.mem_cons, not_or]
          exact ⟨fun he => hc he.symm, hfree⟩
        · rintro -
          rfl

theorem afterLastDot_dotfree {m r : List Char} (h : Bq.afterLastDot m = some r) :
    '.' ∉ r := by
  induction m generalizing r with
  | nil => cases h
  | cons c cs ih =>
    simp only [Bq.afterLastDot] at h
    cases hcs : Bq.afterLastDot cs with
    | some r2 =>
      rw [hcs] at h
      injection h with h2
      exact h2 ▸ ih hcs
    | none =>
      rw [hcs] at h
      by_cases hc : c = '.'
      · rw [if_pos hc] at h
        injection h with h2
        exact h2 ▸ afterLastDot_eq_none.mp hcs
      · rw [if_neg hc] at h
        cases h

theorem afterLastDot_suffix {m r : List Char} (h : Bq.afterLastDot m = some r) :
    ('.' :: r) <:+ m := by
  induction m generalizing r with
  | nil => cases h
  | cons c cs ih =>
    simp only [Bq.afterLastDot] at h
    cases hcs : Bq.afterLastDot cs with
    | some r2 =>
      rw [hcs] at h
      injection h with h2
      obtain ⟨t, ht⟩ := ih (h2 ▸ hcs)
      exact ⟨c :: t, by rw [List.cons_append, ht]⟩
    | none =>
      rw [hcs] at h
      by_cases hc : c = '.'
      · rw [if_pos hc] at h
        injection h with h2
        subst hc h2
        exact List.suffix_rfl
      · rw [if_neg hc] at h
        cases h

theorem afterLastDot_of_suffix {t m : List Char} (hfree : '.' ∉ t)
    (h : ('.' :: t) <:+ m) : Bq.afterLastDot m = some t := by
  induction m with
  | nil => simp at h
  | cons c cs ih =>
    rcases List.suffix_cons_iff.mp h with heq | hsuf
    · injection heq with hc hcs
      subst hc hcs
      simp [Bq.afterLastDot, afterLastDot_eq_none.mpr hfree]
    · simp only [Bq.afterLastDot, ih hsuf]

theorem dotKey_suffix_iff {t : List Char} {c : Char} {cs : List Char}
    (hfree : '.' ∉ t) :
    ('.' :: t) <:+ (c :: cs) ↔
      (Bq.afterLastDot cs = some t ∨ (c = '.' ∧ cs = t)) := by
  constructor
  · intro h
    rcases List.suffix_cons_iff.mp h with heq | hsuf
    · injection heq with hc hcs
      exact Or.inr ⟨hc.symm, hcs.symm⟩
    · exact Or.inl (afterLastDot_of_suffix hfree hsuf)
  · rintro (hA | ⟨rfl, rfl⟩)
    · obtain ⟨t0, ht0⟩ := afterLastDot_suffix hA
      exact ⟨c :: t0, by rw [List.cons_append, ht0]⟩
    · exact List.suffix_rfl

theorem key_suffix_iff2 {t rest : List Char} {c : Char} {cs : List Char}
    (hfree : '.' ∉ t)
    (hafter : Bq.afterLastDot cs = some rest)
    (hhid : c = '.' → '.' ∈ cs) :
    (('.' :: t).isSuffixOf (c :: cs) = true ↔ ('.' :: t : List Char) = '.' :: rest) := by
  rw [isSuffixOf_true, dotKey_suffix_iff hfree]
  constructor
  · rintro (hA | ⟨hc, hcs⟩)
    · rw [hafter] at hA
      injection hA with h2
      rw [h2]
    · exfalso
      have hdot := hhid hc
      rw [hcs] at hdot
      exact hfree hdot
  · intro heq
    injection heq with hhead htail
    refine Or.inl ?_
    rw [htail]
    exact hafter

theorem key_not_suffix {t : List Char} {c : Char} {cs : List Char}
    (hfree : '.' ∉ t) (htne : t ≠ [])
    (hbad : Bq.afterLastDot cs = none ∨ Bq.afterLastDot cs = some [])
    (hhid : c = '.' → '.' ∈ cs) :
    ¬ (('.' :: t).isSuffixOf (c :: cs) = true) := by
  rw [isSuffixOf_true, dotKey_suffix_iff hfree]
  rintro (hA | ⟨hc, hcs⟩)
  · rcases hbad with hb | hb <;> rw [hb] at hA
    · cases hA
    · injection hA with h2
      exact htne h2.symm
  · have hdot := hhid hc
    rw [hcs] at hdot
    exact hfree hdot

theorem find?_map_eq_assocLookup (m : List (List Char × List Char)) (key l : List Char)
    (h : ∀ p ∈ m, (p.1.isSuffixOf l = true ↔ p.1 = key)) :
    (m.find? (fun p => p.1.isSuffixOf l)).map Prod.snd = Bq.assocLookup key m := by
  induction m with
  | nil => rfl
  | cons p rest ih =>
    obtain ⟨k0, v0⟩ := p
    by_cases hk : k0 = key
    · have hs : (k0.isSuffixOf l) = true :=
        (h (k0, v0) (List.mem_cons_self _ _)).mpr hk
      simp only [List.find?, hs]
      simp [Bq.assocLookup, hk]
    · have hs : (k0.isSuffixOf l) = false := Bool.eq_false_iff.mpr (fun hs =>
        hk ((h (k0, v0) (List.mem_cons_self _ _)).mp hs))
      simp only [List.find?, hs]
      rw [ih (fun p hp => h p (List.mem_cons_of_mem _ hp))]
      simp [Bq.assocLookup, hk]

theorem pyLower_no_upper {l : List Char} (h : ∀ c ∈ l, isUpperAlpha c = false) :
    pyLower l = l := by
  induction l with
  | nil => rfl
  | cons c cs ih =>
    have hc : charLower c = c := by
      simp [charLower, h c (List.mem_cons_self _ _)]
    simp only [pyLower, List.map_cons, hc]
    have := ih (fun x hx => h x (List.mem_cons_of_mem _ hx))
    simp only [pyLower] at this
    rw [this]

theorem detect_source_toOption (l : List Char) :
    (Bq.detect_source_format l).toOption =
      Bq.assocLookup (pyLower (Bq.pathSuffix l)) Bq.formatMap := by
  unfold Bq.detect_source_format
  cases h : Bq.assocLookup (pyLower (Bq.pathSuffix l)) Bq.formatMap <;>
    simp [h, Except.toOption]

theorem detect_gcs_toOption (l : List Char) :
    (Bq.detect_gcs_format l).toOption =
      (Bq.formatMap.find? (fun p => p.1.isSuffixOf l)).map Prod.snd := by
  unfold Bq.detect_gcs_format
  cases h : Bq.formatMap.find? (fun p => p.1.isSuffixOf l) <;>
    simp [h, Except.toOption]

/-! ## Claim theorems -/

/-- C1: code-bug evidence.  `Table.read` with `max_results = 100` on the
table `test-project.my_dataset.my_table` submits the query text
`SELECT * FROM ... LIMIT 100`: the numeric limit is string-interpolated
(` LIMIT 100` is a suffix of the query) and no `@max_results` bound
parameter placeholder occurs (the query contains no `@` at all),
contradicting the claim and the repository's own security tests. -/
theorem C1_read_query_interpolates_limit :
    Bq.readQuery (Bq.tableId "test-project".data "my_dataset".data "my_table".data)
        (some 100) =
      "SELECT * FROM `test-project.my_dataset.my_table` LIMIT 100".data ∧
    (" LIMIT 100".data.isSuffixOf
      (Bq.readQuery (Bq.tableId "test-project".data "my_dataset".data "my_table".data)
        (some 100))) = true ∧
    ¬ '@' ∈ Bq.readQuery (Bq.tableId "test-project".data "my_dataset".data "my_table".data)
        (some 100) := by
  decide

/-- C7 (amended): the local-file detector and the remote-URI detector
are not functionally equivalent in general, but they do agree (same
format or both fail) on every path string that contains no slash and no
uppercase letter and is not a bare hidden-file name (a leading dot with
no further dot); the counterexample covers the excluded cases. -/
theorem C7_detectors_amended (s : List Char)
    (hslash : '/' ∉ s)
    (hupper : ∀ c ∈ s, isUpperAlpha c = false)
    (hhidden : s.head? = some '.' → '.' ∈ s.tail) :
    (Bq.detect_source_format s).toOption = (Bq.detect_gcs_format s).toOption := by
  rw [detect_source_toOption, detect_gcs_toOption]
  cases s with
  | nil => rfl
  | cons c cs =>
    have hhid : c = '.' → '.' ∈ cs := by
      intro hc
      simpa using hhidden (by simp [hc])
    cases hafter : Bq.afterLastDot cs with
    | none =>
      have hsuf : Bq.pathSuffix (c :: cs) = [] := by
        simp [Bq.pathSuffix, hafter]
      rw [hsuf]
      have hfind : Bq.formatMap.find? (fun p => p.1.isSuffixOf (c :: cs)) = none := by
        rw [List.find?_eq_none]
        intro p hp
        fin_cases hp <;>
          exact key_not_suffix (by decide) (by decide) (Or.inl hafter) hhid
      rw [hfind]
      rfl
    | some rest =>
      cases rest with
      | nil =>
        have hsuf : Bq.pathSuffix (c :: cs) = [] := by
          simp [Bq.pathSuffix, hafter]
        rw [hsuf]
        have hfind : Bq.formatMap.find? (fun p => p.1.isSuffixOf (c :: cs)) = none := by
          rw [List.find?_eq_none]
          intro p hp
          fin_cases hp <;>
            exact key_not_suffix (by decide) (by decide) (Or.inr hafter) hhid
        rw [hfind]
        rfl
      | cons r0 rtail =>
        have hsuf : Bq.pathSuffix (c :: cs) = '.' :: r0 :: rtail := by
          simp [Bq.pathSuffix, hafter]
        rw [hsuf]
        have hsufcs : ('.' :: r0 :: rtail) <:+ cs := afterLastDot_suffix hafter
        have hupper2 : ∀ x ∈ ('.' :: r0 :: rtail : List Char), isUpperAlpha x = false := by
          intro x hx
          exact hupper x (List.mem_cons_of_mem c (hsufcs.subset hx))
        rw [pyLower_no_upper hupper2]
        have hiff : ∀ p ∈ Bq.formatMap,
            ((p.1.isSuffixOf (c :: cs)) = true ↔ p.1 = '.' :: r0 :: rtail) := by
          intro p hp
          fin_cases hp <;> exact key_suffix_iff2 (by decide) hafter hhid
        exact (find?_map_eq_assocLookup Bq.formatMap ('.' :: r0 :: rtail) (c :: cs) hiff).symm

/-- C7 witness: the amended agreement applied at a concrete lowercase
path. -/
theorem C7_detectors_amended_witness :
    (Bq.detect_source_format "data.csv".data).toOption =
      (Bq.detect_gcs_format "data.csv".data).toOption :=
  C7_detectors_amended "data.csv".data (by decide) (by decide) (by decide)

/-- C8: when the remote service reports not-found, `Client.get` returns
the caller-supplied default without raising, also when that default is
explicitly `None`; with no default supplied (the `_UNSET` sentinel,
which is distinct from every supplied value including `None`), the
not-found error is re-raised. -/
theorem C8_not_found_default
    (store : List Char → Option (List Nat)) (decode : List Nat → List Char)
    (jsonParse : List Char → Sm.PyVal) (cli : Sm.Client) (secret : List Char)
    (version : Option Sm.PyVersion) (as_json as_bytes : Bool)
    (proj sec : List Char) (path_version : Option (List Char)) (ver : List Char)
    (v : Sm.PyVal)
    (hflags : ¬ (as_json = true ∧ as_bytes = true))
    (hnorm : Sm.normalize_secret_path secret cli.project_id = .ok (proj, sec, path_version))
    (hver : Sm.resolveVersion version path_version cli.default_version = .ok ver)
    (hproj : Sm.validate_project_id proj = .ok ())
    (hsec : Sm.validate_secret_id sec = .ok ())
    (hstore : store ("projects/".data ++ proj ++ "/secrets/".data ++ sec ++
      "/versions/".data ++ ver) = none) :
    Sm.Client.get store decode jsonParse cli secret version as_json as_bytes
        (.given v) = .ok v ∧
    Sm.Client.get store decode jsonParse cli secret version as_json as_bytes
        .unset = .error .notFound ∧
    Sm.DefaultArg.given Sm.PyVal.none ≠ Sm.DefaultArg.unset := by
  have hb : (as_json && as_bytes) = false := by
    cases as_json <;> cases as_bytes <;> simp_all
  simp only [List.append_assoc, List.cons_append, List.nil_append] at hstore
  refine ⟨?_, ?_, by simp⟩ <;>
    simp [Sm.Client.get, hb, hnorm, hver, hproj, hsec, hstore,
      Bind.bind, Except.bind, Pure.pure, Except.pure, throw, throwThe,
      MonadExceptOf.throw]

/-- C8 witness: the theorem applied to a store with no secrets and a
concrete client. -/
theorem C8_not_found_default_witness :
    Sm.Client.get (fun _ => none) (fun _ => []) (fun _ => .none)
        ⟨"my-proj".data, "latest".data, "utf-8".data⟩ "s".data none false false
        (.given .none) = .ok .none ∧
    Sm.Client.get (fun _ => none) (fun _ => []) (fun _ => .none)
        ⟨"my-proj".data, "latest".data, "utf-8".data⟩ "s".data none false false
        .unset = .error .notFound ∧
    Sm.DefaultArg.given Sm.PyVal.none ≠ Sm.DefaultArg.unset :=
  C8_not_found_default (fun _ => none) (fun _ => []) (fun _ => .none)
    ⟨"my-proj".data, "latest".data, "utf-8".data⟩ "s".data none false false
    "my-proj".data "s".data none "latest".data Sm.PyVal.none
    (by simp) (by decide) (by decide) (by decide) (by decide) rfl

/-- C9: the `data is None` branch of `Table.write` creates the empty
table with `exists_ok=True` unconditionally, so it never raises a
conflict error whether or not the table already exists; `Table.create`
re-raises the conflict unless the caller sets `exists_ok`. -/
theorem C9_write_none_vs_create :
    (∀ (s : List (List Char × List Char)) (table_exists : Bool),
       Bq.Table.write_none (some s) table_exists = .ok (Bq.dict_to_schema_fields s)) ∧
    (∀ s, Bq.Table.create s true false = .error .conflict) ∧
    (∀ (s : List (List Char × List Char)) (table_exists : Bool),
       Bq.Table.create s table_exists true = .ok (Bq.dict_to_schema_fields s)) ∧
    (∀ s, Bq.Table.create s false false = .ok (Bq.dict_to_schema_fields s)) := by
  refine ⟨fun s te => ?_, fun s => rfl, fun s te => ?_, fun s => rfl⟩ <;>
    cases te <;> rfl

/-- C4: the version used by a retrieval is the explicit call-time
version, else the version embedded in the identifier path, else the
client default, each normalized by the same validation; normalization
turns positive integers into decimal strings, passes `latest` and
`latest:enabled` through unchanged, accepts digit strings denoting an
integer at least 1, and rejects everything else; integer and
digit-string versions not exceeding zero always fail, with no fallback
to the path or default version. -/
theorem C4_version_resolution :
    (∀ (v : Sm.PyVersion) (pv : Option (List Char)) (d : List Char),
       Sm.resolveVersion (some v) pv d = Sm.validate_version v) ∧
    (∀ p d : List Char,
       Sm.resolveVersion none (some p) d = Sm.validate_version (.str p)) ∧
    (∀ d : List Char, Sm.resolveVersion none none d = Sm.validate_version (.str d)) ∧
    (∀ n : Int, 1 ≤ n → Sm.validate_version (.int n) = .ok (toString n).data) ∧
    Sm.validate_version (.str "latest".data) = .ok "latest".data ∧
    Sm.validate_version (.str "latest:enabled".data) = .ok "latest:enabled".data ∧
    (∀ s : List Char, AllDigits s → 1 ≤ pyDigitsToNat s →
       Sm.validate_version (.str s) = .ok s) ∧
    (∀ n : Int, n ≤ 0 → ∀ (pv : Option (List Char)) (d : List Char),
       Sm.resolveVersion (some (.int n)) pv d = .error (.versionNotPositive n)) ∧
    (∀ s : List Char, AllDigits s → pyDigitsToNat s = 0 →
       ∀ (pv : Option (List Char)) (d : List Char),
         Sm.resolveVersion (some (.str s)) pv d = .error (.invalidVersion s)) ∧
    (∀ s : List Char, s ≠ "latest".data → s ≠ "latest:enabled".data → ¬ AllDigits s →
       Sm.validate_version (.str s) = .error (.invalidVersion s)) := by
  have hkw : ∀ s : List Char, AllDigits s →
      ¬ (s = "latest".data ∨ s = "latest:enabled".data) := by
    rintro s hd (rfl | rfl) <;>
      exact absurd (hd.2 'l' (by decide)) (by decide)
  refine ⟨fun v pv d => rfl, fun p d => rfl, fun d => rfl, ?_, rfl, rfl, ?_, ?_, ?_, ?_⟩
  · intro n hn
    simp only [Sm.validate_version]
    rw [if_neg (by omega)]
  · intro s hd h1
    simp only [Sm.validate_version]
    rw [if_neg (hkw s hd), if_pos (pyIsDigit_true.mpr hd), if_neg (by omega)]
  · intro n hn pv d
    show Sm.validate_version (.int n) = _
    simp only [Sm.validate_version]
    rw [if_pos (by omega)]
  · intro s hd h0 pv d
    show Sm.validate_version (.str s) = _
    simp only [Sm.validate_version]
    rw [if_neg (hkw s hd), if_pos (pyIsDigit_true.mpr hd), if_pos (by omega)]
  · intro s h1 h2 hd
    simp only [Sm.validate_version]
    rw [if_neg (by rintro (rfl | rfl) <;> [exact h1 rfl; exact h2 rfl]),
      if_neg (fun h => hd (pyIsDigit_true.mp h))]

/-- C4 witness: version resolution applied at concrete versions. -/
theorem C4_version_resolution_witness :
    Sm.validate_version (.int 3) = .ok (toString (3 : Int)).data ∧
    Sm.resolveVersion (some (.int 0)) (some "2".data) "latest".data =
      .error (.versionNotPositive 0) ∧
    Sm.resolveVersion (some (.str "0".data)) (some "2".data) "latest".data =
      .error (.invalidVersion "0".data) :=
  ⟨C4_version_resolution.2.2.2.1 3 (by norm_num),
   C4_version_resolution.2.2.2.2.2.2.2.1 0 (by norm_num) (some "2".data) "latest".data,
   C4_version_resolution.2.2.2.2.2.2.2.2.1 "0".data (pyIsDigit_true.mp (by decide))
     (by decide) (some "2".data) "latest".data⟩

/-- C5: counterexample.  An unknown type string is NOT passed through
unchanged: normalization returns its uppercased form. -/
theorem C5_counterexample :
    Bq.normalize_type_name "myType".data = "MYTYPE".data ∧
    Bq.normalize_type_name "myType".data ≠ "myType".data := by
  decide

/-- C5 (amended): normalization uppercases the type string and looks it
up in the fixed alias table; every type string whose uppercase form is
not a key of the table passes through UPPERCASED (not unchanged), never
failing; the aliases map as listed, case-insensitively. -/
theorem C5_normalize_type_amended :
    (∀ s : List Char, Bq.assocLookup (pyUpper s) Bq.typeAliasMap = none →
       Bq.normalize_type_name s = pyUpper s) ∧
    (∀ s : List Char,
       pyUpper s = "INTEGER".data ∨ pyUpper s = "INT".data ∨ pyUpper s = "BIGINT".data →
       Bq.normalize_type_name s = "INT64".data) ∧
    (∀ s : List Char, pyUpper s = "FLOAT".data ∨ pyUpper s = "DOUBLE".data →
       Bq.normalize_type_name s = "FLOAT64".data) ∧
    (∀ s : List Char, pyUpper s = "BOOL".data →
       Bq.normalize_type_name s = "BOOLEAN".data) ∧
    (∀ s : List Char, pyUpper s = "TEXT".data ∨ pyUpper s = "VARCHAR".data →
       Bq.normalize_type_name s = "STRING".data) ∧
    (∀ s : List Char,
       pyUpper s ∈ ["STRING".data, "BYTES".data, "DATE".data, "DATETIME".data,
         "TIME".data, "TIMESTAMP".data, "NUMERIC".data, "BIGNUMERIC".data,
         "GEOGRAPHY".data, "JSON".data, "ARRAY".data, "STRUCT".data] →
       Bq.normalize_type_name s = pyUpper s) := by
  refine ⟨?_, ?_, ?_, ?_, ?_, ?_⟩
  · intro s h
    show (Bq.assocLookup (pyUpper s) Bq.typeAliasMap).getD (pyUpper s) = pyUpper s
    rw [h]; rfl
  · rintro s (h | h | h) <;>
      (show (Bq.assocLookup (pyUpper s) Bq.typeAliasMap).getD (pyUpper s) = "INT64".data
       rw [h]; decide)
  · rintro s (h | h) <;>
      (show (Bq.assocLookup (pyUpper s) Bq.typeAliasMap).getD (pyUpper s) = "FLOAT64".data
       rw [h]; decide)
  · intro s h
    show (Bq.assocLookup (pyUpper s) Bq.typeAliasMap).getD (pyUpper s) = "BOOLEAN".data
    rw [h]; decide
  · rintro s (h | h) <;>
      (show (Bq.assocLookup (pyUpper s) Bq.typeAliasMap).getD (pyUpper s) = "STRING".data
       rw [h]; decide)
  · intro s h
    simp only [List.mem_cons, List.not_mem_nil, or_false] at h
    show (Bq.assocLookup (pyUpper s) Bq.typeAliasMap).getD (pyUpper s) = pyUpper s
    rcases h with h | h | h | h | h | h | h | h | h | h | h | h <;> rw [h] <;> decide

/-- C5 witness: the amended theorem applied at a concrete unknown type
string. -/
theorem C5_normalize_type_amended_witness :
    Bq.normalize_type_name "Foo9".data = "FOO9".data :=
  C5_normalize_type_amended.1 "Foo9".data (by decide)

/-- C2: counterexample.  The warehouse (dataset/table) validator rejects
the all-digit project identifier `123` (the claim says all-digit strings
are accepted unconditionally); only the secret-manager validator accepts
it.  The warehouse validator also accepts `a_b`, which the pattern
`^[a-z][a-z0-9-]*[a-z0-9]$` named by the claim rejects (underscore). -/
theorem C2_counterexample :
    Bq.validate_identifier "123".data "project_id".data =
      .error (.invalidIdentifier "project_id".data "123".data) ∧
    Sm.validate_project_id "123".data = .ok () ∧
    Bq.validate_identifier "a_b".data "project_id".data = .ok "a_b".data := by
  decide

set_option maxRecDepth 40000

/-- C3: secret-path resolution follows the three-shape algorithm.  For
an identifier assembled from slash-free segments whose first segment is
`projects` (hence the string starts with `projects/`): fewer than four
segments or a third segment other than the literal `secrets` fails,
otherwise the result is (segment 1, segment 3, the segment after a
`versions` fifth segment, or none).  Otherwise an identifier containing
a slash splits at the first slash into (project, secret), both required
non-empty.  Otherwise the result is (default project, identifier, none).
The three concrete examples of the claim are included. -/
theorem C3_normalize_secret_path (project_id : List Char) :
    (∀ parts : List (List Char), 2 ≤ parts.length → (∀ p ∈ parts, '/' ∉ p) →
       parts.getD 0 [] = "projects".data →
       (parts.length < 4 ∨ parts.getD 2 [] ≠ "secrets".data →
          Sm.normalize_secret_path (joinSlashes parts) project_id =
            .error (.invalidResourcePath (joinSlashes parts))) ∧
       (4 ≤ parts.length → parts.getD 2 [] = "secrets".data →
          Sm.normalize_secret_path (joinSlashes parts) project_id =
            .ok (parts.getD 1 [], parts.getD 3 [],
              if 6 ≤ parts.length ∧ parts.getD 4 [] = "versions".data then
                some (parts.getD 5 [])
              else none))) ∧
    (∀ proj sec : List Char, '/' ∉ proj →
       ¬ "projects/".data.isPrefixOf (proj ++ '/' :: sec) = true →
       (proj ≠ [] → sec ≠ [] →
          Sm.normalize_secret_path (proj ++ '/' :: sec) project_id =
            .ok (proj, sec, none)) ∧
       (proj = [] ∨ sec = [] →
          Sm.normalize_secret_path (proj ++ '/' :: sec) project_id =
            .error (.invalidSecretIdentifier (proj ++ '/' :: sec)))) ∧
    (∀ identifier : List Char, '/' ∉ identifier →
       Sm.normalize_secret_path identifier project_id =
         .ok (project_id, identifier, none)) ∧
    Sm.normalize_secret_path "projects/p/secrets/s/versions/3".data project_id =
      .ok ("p".data, "s".data, some "3".data) ∧
    Sm.normalize_secret_path "p/s".data project_id =
      .ok ("p".data, "s".data, none) ∧
    Sm.normalize_secret_path "s".data project_id =
      .ok (project_id, "s".data, none) := by
  refine ⟨?_, ?_, ?_, by rfl, by rfl, by rfl⟩
  · intro parts hlen hfree h0
    cases parts with
    | nil => simp at hlen
    | cons p0 t =>
      cases t with
      | nil => simp at hlen
      | cons p1 rest =>
        have h0' : p0 = "projects".data := h0
        subst h0'
        have hjoin : joinSlashes ("projects".data :: p1 :: rest) =
            "projects".data ++ '/' :: joinSlashes (p1 :: rest) := rfl
        have hpre : "projects/".data.isPrefixOf
            (joinSlashes ("projects".data :: p1 :: rest)) = true := by
          apply isPrefixOf_true.mpr
          refine ⟨joinSlashes (p1 :: rest), ?_⟩
          rw [hjoin]
          have hps : "projects/".data = "projects".data ++ ['/'] := by decide
          rw [hps, List.append_assoc]
          rfl
        have hsplit : Sm.splitSlashes (joinSlashes ("projects".data :: p1 :: rest)) =
            "projects".data :: p1 :: rest :=
          splitSlashes_join (by simp) hfree
        constructor
        · intro hbad
          unfold Sm.normalize_secret_path
          rw [if_pos hpre]
          simp only [hsplit]
          rw [if_pos hbad]
        · intro h4 hsec
          unfold Sm.normalize_secret_path
          rw [if_pos hpre]
          simp only [hsplit]
          rw [if_neg (by
            push_neg
            refine ⟨?_, hsec⟩
            simp only [List.length_cons] at h4 ⊢
            omega)]
  · intro proj sec hfreep hnpre
    have hcont : (proj ++ '/' :: sec).contains '/' = true := by
      simp [List.contains]
    have hfs : Sm.splitFirstSlash (proj ++ '/' :: sec) = (proj, some sec) :=
      splitFirstSlash_append hfreep
    constructor
    · intro hp hs
      unfold Sm.normalize_secret_path
      rw [if_neg hnpre, if_pos hcont]
      simp only [hfs]
      rw [if_neg (by rintro (h | h) <;> [exact hp h; exact hs h])]
    · intro hor
      unfold Sm.normalize_secret_path
      rw [if_neg hnpre, if_pos hcont]
      simp only [hfs]
      rw [if_pos hor]
  · intro identifier hfree
    have hnpre : ¬ "projects/".data.isPrefixOf identifier = true := by
      intro hp
      exact hfree (mem_of_isPrefixOf_mem hp (by decide))
    have hcont : ¬ identifier.contains '/' = true := by
      intro hc
      apply hfree
      simpa [List.contains] using hc
    unfold Sm.normalize_secret_path
    rw [if_neg hnpre, if_neg hcont]

/-- C3 witness: the resolver branch facts applied at concrete inputs. -/
theorem C3_normalize_secret_path_witness :
    Sm.normalize_secret_path "projects/p/wrong/s".data "d".data =
      .error (.invalidResourcePath "projects/p/wrong/s".data) ∧
    Sm.normalize_secret_path "p/".data "d".data =
      .error (.invalidSecretIdentifier "p/".data) := by
  constructor
  · have h := ((C3_normalize_secret_path "d".data).1
      ["projects".data, "p".data, "wrong".data, "s".data]
      (by decide) (by decide) (by decide)).1 (by decide)
    exact h
  · exact ((C3_normalize_secret_path "d".data).2.1 "p".data [] (by decide)
      (by decide)).2 (Or.inr rfl)

/-- C10: the `get_dict` parsing loop silently skips empty lines and
lines in which the key separator does not occur; each remaining line is
split at the FIRST occurrence of the key separator only (the key is the
shortest prefix admitting such a split); and the value returned for a
key is the one contributed by the last line that produced that key.  A
concrete last-wins example is included. -/
theorem C10_get_dict_parsing :
    (∀ (ks : List Char) (sk sv uk : Bool) (acc : List (List Char × List Char))
       (line : List Char),
       line = [] ∨ isSubstring ks line = false →
       Sm.getDictStep ks sk sv uk acc line = acc) ∧
    (∀ sep line k v : List Char, sep ≠ [] →
       Sm.splitFirstSep sep line = some (k, v) →
       line = k ++ sep ++ v ∧
         ∀ k2 v2 : List Char, line = k2 ++ sep ++ v2 → k.length ≤ k2.length) ∧
    (∀ (text ls ks : List Char) (sk sv uk : Bool) (k : List Char),
       Bq.assocLookup k (Sm.get_dict_parse text ls ks sk sv uk) =
         (Sm.splitOnSep ls text).reverse.findSome? fun line =>
            match Sm.processLine ks sk sv uk line with
            | some (k2, v) => if k2 = k then some v else none
            | none => none) ∧
    Bq.assocLookup "A".data
        (Sm.get_dict_parse "A=1\nB=2\nA=3\n\nnoKey".data "\n".data "=".data
          true true false) = some "3".data := by
  refine ⟨?_, fun sep line k v hsep h => splitFirstSep_spec hsep h, ?_, by decide⟩
  · intro ks sk sv uk acc line hskip
    unfold Sm.getDictStep
    rcases hskip with rfl | hns
    · rfl
    · have : Sm.splitFirstSep ks line = none := splitFirstSep_none.mpr hns
      unfold Sm.processLine
      rw [this]
      by_cases he : line.isEmpty = true <;> simp [he]
  · intro text ls ks sk sv uk k
    unfold Sm.get_dict_parse
    rw [assocLookup_foldl_getDictStep]
    simp [Bq.assocLookup]

/-- C10 witness: a line without the separator is skipped. -/
theorem C10_get_dict_parsing_witness :
    Sm.getDictStep "=".data true true false [("X".data, "1".data)] "noKeyHere".data =
      [("X".data, "1".data)] :=
  C10_get_dict_parsing.1 "=".data true true false [("X".data, "1".data)]
    "noKeyHere".data (Or.inr (by decide))

/-- C2 (amended): only the secret-manager project validator accepts
all-digit strings unconditionally, and it otherwise requires the
lowercase-only pattern `^[a-z][a-z0-9-]*[a-z0-9]$`; the warehouse
validator has no digit special case and accepts exactly the non-empty
strings of at most 1024 characters matching `^[a-z][a-z0-9\-\'_]*$`
case-insensitively (both with the Python `$` semantics that also allow
one trailing newline). -/
theorem C2_project_validators_amended (s : List Char) :
    (Sm.validate_project_id s = .ok () ↔
       AllDigits s ∨ DollarMatches SmProjectShape s) ∧
    (Bq.validate_identifier s "project_id".data = .ok s ↔
       s ≠ [] ∧ s.length ≤ 1024 ∧ DollarMatches BqProjectShape s) := by
  constructor
  · unfold Sm.validate_project_id
    by_cases h : (pyIsDigit s || reMatchDollar Sm.projectIdCore s) = true
    · rw [if_pos h]
      constructor
      · rintro -
        have h' : pyIsDigit s = true ∨ reMatchDollar Sm.projectIdCore s = true := by
          simpa using h
        rcases h' with h1 | h2
        · exact Or.inl (pyIsDigit_true.mp h1)
        · exact Or.inr ((reMatchDollar_true (fun l => @smProjectCore_true l) s).mp h2)
      · rintro -; rfl
    · rw [if_neg h]
      constructor
      · intro hok; exact absurd hok (by simp)
      · intro hr
        exfalso
        apply h
        rw [Bool.or_eq_true]
        rcases hr with h1 | h2
        · exact Or.inl (pyIsDigit_true.mpr h1)
        · exact Or.inr ((reMatchDollar_true (fun l => @smProjectCore_true l) s).mpr h2)
  · rw [validate_identifier_project_ok s _ (by decide)]
    rw [show (reMatchDollar Bq.bqProjectCore s = true) ↔ DollarMatches BqProjectShape s from
      reMatchDollar_true (fun l => @bqProjectCore_true l) s]

/-- C2 witness: the amended theorem applied at concrete project
identifiers accepted by each validator. -/
theorem C2_project_validators_amended_witness :
    Sm.validate_project_id "my-proj".data = .ok () ∧
    Bq.validate_identifier "My_Project".data "project_id".data = .ok "My_Project".data := by
  constructor
  · exact (C2_project_validators_amended "my-proj".data).1.mpr
      (Or.inr (Or.inl ⟨'m', "y-pro".data, 'j', by decide, by decide, by decide, by decide⟩))
  · exact (C2_project_validators_amended "My_Project".data).2.mpr
      ⟨by decide, by decide, Or.inl ⟨'M', "y_Project".data, by decide, by decide, by decide⟩⟩

/-- C6: counterexample.  A 1025-character identifier matches the generic
pattern but is rejected by the length check, and `abc` followed by a
newline contains a character outside `[A-Za-z0-9_]` yet is accepted,
because the `$` anchor of `re.match` also matches before a trailing
newline. -/
theorem C6_counterexample :
    (Bq.genericIdCore (List.replicate 1025 'a') = true ∧
     Bq.validate_identifier (List.replicate 1025 'a') "identifier".data =
       .error (.identifierTooLong "identifier".data)) ∧
    (('\n' ∈ "abc\n".data ∧ Bq.isWordChar '\n' = false) ∧
     Bq.validate_identifier "abc\n".data "identifier".data = .ok "abc\n".data) := by
  decide

/-- C6 (amended): the generic (non-project) validator accepts a string,
returning it unchanged, exactly when it is non-empty, at most 1024
characters long, and matches `^[A-Za-z_][A-Za-z0-9_]*$` under the
Python `$` semantics that also allow one trailing newline; in
particular strings over 1024 characters fail even when they match the
pattern, and a string whose only foreign character is a single trailing
newline is accepted. -/
theorem C6_generic_validator_amended (s : List Char) :
    Bq.validate_identifier s "identifier".data = .ok s ↔
      s ≠ [] ∧ s.length ≤ 1024 ∧ DollarMatches GenericShape s := by
  rw [validate_identifier_generic_ok s _ (by decide)]
  rw [show (reMatchDollar Bq.genericIdCore s = true) ↔ DollarMatches GenericShape s from
    reMatchDollar_true (fun l => @genericIdCore_true l) s]

/-- C6 witness: the amended theorem applied at a concrete valid
identifier. -/
theorem C6_generic_validator_amended_witness :
    Bq.validate_identifier "tbl_1".data "identifier".data = .ok "tbl_1".data :=
  (C6_generic_validator_amended "tbl_1".data).mpr
    ⟨by decide, by decide, Or.inl ⟨'t', "bl_1".data, by decide, Or.inl (by decide), by decide⟩⟩

/-- C7: counterexample.  The two format detectors are not functionally
equivalent: on the bare hidden-file name `.csv` the local detector fails
(empty `Path` suffix) while the remote-URI detector returns `CSV`, and
on `Data.CSV` the local detector returns `CSV` (it lowercases the
extension) while the remote-URI detector fails (case-sensitive raw
suffix match). -/
theorem C7_counterexample :
    (Bq.detect_source_format ".csv".data).toOption = none ∧
    (Bq.detect_gcs_format ".csv".data).toOption = some "CSV".data ∧
    (Bq.detect_source_format "Data.CSV".data).toOption = some "CSV".data ∧
    (Bq.detect_gcs_format "Data.CSV".data).toOption = none := by
  decide
